import Mathlib

/-! # Verification of the metabolomic_analysis core of metabo-mcp

Shallow embedding of the cross-validation splitter (`Spliter`, `Split`) and of the
hyperparameter-search coordinator (`Optimizer`, `ParamRange`) from
`src/metabolomic_analysis/split/spliter.py`, `src/metabolomic_analysis/split/split.py`
and `src/metabolomic_analysis/optim/optimizer.py`.

Conventions of the embedding:
* class labels, pairing-group identifiers and dataframe indices are natural numbers;
* python floats are embedded as rationals (`ℚ`), `int(...)` on a non-negative value
  is `Int.floor` followed by `Int.toNat`;
* randomness (`np.random.shuffle`, `sklearn.train_test_split`'s shuffling,
  `DataFrame.sample`) is passed in as oracle arguments (a shuffled order per split, a
  sampled row subset per split); theorems constrain those oracles with hypotheses that
  state exactly what the library guarantees (a permutation of the input, a subset of
  the sampled-from rows of the requested size);
* code that can raise is embedded in `Except String` (or `Option` for a bare
  `ValueError`), code that cannot raise returns plainly.
-/

namespace MetaboMCP

/-! ## Class-count helpers for `Spliter._redistribute`
(`spliter.py`, lines 81-103).

`y.value_counts(normalize=True)` gives each distinct label its proportion
`count / len(y)`; `idxmax` / `idxmin` pick a label attaining the maximal / minimal
count (ties are broken by the order `value_counts` happens to produce; the embedding
fixes the tie-break of `List.argmax` / `List.argmin`, which is irrelevant to every
property proved below). -/

/-- The label `class_counts.idxmax()` : a label of `y` with maximal count. -/
def majority (y : List ℕ) : ℕ :=
  (y.dedup.argmax fun c => y.count c).getD 0

/-- The label `class_counts.idxmin()` : a label of `y` with minimal count. -/
def minority (y : List ℕ) : ℕ :=
  (y.dedup.argmin fun c => y.count c).getD 0

/-- `class_counts.max()` as a proportion of the fold size. -/
def maxProp (y : List ℕ) : ℚ :=
  (y.count (majority y) : ℚ) / (y.length : ℚ)

/-- `class_counts.min()` as a proportion of the fold size. -/
def minProp (y : List ℕ) : ℚ :=
  (y.count (minority y) : ℚ) / (y.length : ℚ)

/-- `Spliter._redistribute` (spliter.py lines 81-103) at the level of the label
multiset of the training fold.  When the proportion gap exceeds
`max_proportion_diff = d`, the majority class is down-sampled (without replacement) to
`int((min_proportion * (d + 1) / (1 - d)) * len(X))` rows and only the majority and
minority classes are kept (`pd.concat([X_majority, X[y == minority_class]])`).  The
random choice of which majority rows survive and the final `np.random.shuffle` do not
change the label multiset, so the corrected fold's labels are exactly
`majorityCount` copies of the majority label plus every minority-label row. -/
def redistribute (d : ℚ) (y : List ℕ) : List ℕ :=
  if maxProp y - minProp y > d then
    List.replicate (⌊minProp y * ((d + 1) / (1 - d)) * (y.length : ℚ)⌋).toNat
        (majority y) ++
      List.replicate (y.count (minority y)) (minority y)
  else y

/-- One loop iteration of `Spliter._split` / `Spliter._pair_split` after the raw split:
`_redistribute` is applied to the training fold only, the validation fold is passed
through untouched (spliter.py lines 61-63 and 76-78). -/
def correctedSplit (d : ℚ) (tr va : List ℕ) : List ℕ × List ℕ :=
  (redistribute d tr, va)

/-! ## `Spliter.split`, unpaired mode (`spliter.py`, lines 66-79) -/

/-- Model of `sklearn.model_selection.train_test_split(idx, test_size=ratio)`:
the shuffled order `perm` of the input index list is an oracle argument; the test fold
is the first `ceil(ratio * n)` entries of the shuffled order (sklearn's test-fold
size for a float `test_size`) and the train fold is the rest.  Returns
`(train, test)` in sklearn's order. -/
def trainTestSplit (ratio : ℚ) (perm : List ℕ) : List ℕ × List ℕ :=
  (perm.drop ⌈ratio * (perm.length : ℚ)⌉₊, perm.take ⌈ratio * (perm.length : ℚ)⌉₊)

/-- `Spliter._split` with `max_proportion_diff = None` (imbalance correction
disabled): `num_splits` independent draws of `train_test_split`, one oracle
permutation per draw. -/
def Spliter.splitRuns (numSplits : ℕ) (ratio : ℚ) (perms : ℕ → List ℕ) :
    List (List ℕ × List ℕ) :=
  (List.range numSplits).map fun i => trainTestSplit ratio (perms i)

/-! ## `Spliter._pair_split` (`spliter.py`, lines 43-64) -/

/-- One dataframe row, reduced to the two columns `_pair_split` inspects:
its pairing-group identifier and its label. -/
structure Row where
  group : ℕ
  label : ℕ
deriving DecidableEq

/-- The assert of spliter.py lines 55-56: every unique pairing value must map to a
single unique label (`len(y[X[pairing_column] == pair].unique()) == 1`). -/
def groupLabelsConsistent (rows : List Row) : Bool :=
  ((rows.map Row.group).dedup).all fun g =>
    ((rows.filter fun r => decide (r.group = g)).map Row.label).dedup.length == 1

/-- `X.loc[X[pairing_column].isin(train_idx)]` for one split: the rows whose group
landed in the train side of the pair-level `train_test_split`. -/
def Spliter.trainRows (ratio : ℚ) (perm : List ℕ) (rows : List Row) : List Row :=
  rows.filter fun r => decide (r.group ∈ (trainTestSplit ratio perm).1)

/-- `X[X[pairing_column].isin(test_idx)]` for one split. -/
def Spliter.valRows (ratio : ℚ) (perm : List ℕ) (rows : List Row) : List Row :=
  rows.filter fun r => decide (r.group ∈ (trainTestSplit ratio perm).2)

/-- `Spliter._redistribute` at row level, as called from `_pair_split`: `sample` is
the oracle for `X[y == majority_class].sample(n=majority_count)`; the minority-class
rows are kept in full, every other row is dropped, and the concluding shuffle (a
permutation) is omitted because no property below depends on row order. -/
def Spliter.redistributeRows (d : ℚ) (sample : List Row) (rows : List Row) :
    List Row :=
  if maxProp (rows.map Row.label) - minProp (rows.map Row.label) > d then
    sample ++ rows.filter fun r => decide (r.label = minority (rows.map Row.label))
  else rows

/-- `Spliter._pair_split`: checks the single-label-per-group assert, then produces
`num_splits` splits, each obtained by splitting the unique pairing values
(`X[pairing_column].unique()`, whose shuffled order is the oracle `perms i`) and
routing every row to the side holding its group; if `max_proportion_diff` is set the
training fold is corrected with `_redistribute` (sampled rows oracle `samples i`). -/
def Spliter.pairSplit (numSplits : ℕ) (ratio : ℚ) (maxPropDiff : Option ℚ)
    (perms : ℕ → List ℕ) (samples : ℕ → List Row) (rows : List Row) :
    Except String (List (List Row × List Row)) :=
  if groupLabelsConsistent rows then
    .ok ((List.range numSplits).map fun i =>
      ((match maxPropDiff with
        | some d =>
          Spliter.redistributeRows d (samples i) (Spliter.trainRows ratio (perms i) rows)
        | none => Spliter.trainRows ratio (perms i) rows),
       Spliter.valRows ratio (perms i) rows))
  else
    .error "Each pair must have a single unique label. Got multiple label for some pairs."

/-! ## `Spliter.__init__` (`spliter.py`, lines 9-23) -/

/-- The state a `Spliter` holds after construction. -/
structure Spliter where
  testRatio : ℚ
  numSplits : ℤ
  maxProportionDiff : Option ℚ
deriving DecidableEq

/-- `Spliter.__init__`: the body only assigns the three attributes; it contains no
validation and cannot raise.  The result is wrapped in `Except` so that the absence
of any raised error is expressible. -/
def Spliter.init (testRatio : ℚ) (numSplits : ℤ) (maxProportionDiff : Option ℚ) :
    Except String Spliter :=
  .ok ⟨testRatio, numSplits, maxProportionDiff⟩

/-! ## `Split.__init__` (`split.py`, lines 4-23) -/

/-- The label-side state of a `Split` record: the sorted distinct train labels
(`self.targets`) and the two integer-index vectors. -/
structure SplitRec where
  targets : List ℕ
  yTrain : List ℕ
  yTest : List ℕ
deriving DecidableEq

/-- Python `list.index(x)`: position of the first occurrence, `none` when absent
(where CPython raises `ValueError`). -/
def listIndex (x : ℕ) : List ℕ → Option ℕ
  | [] => none
  | t :: ts => if t = x then some 0 else (listIndex x ts).map (· + 1)

/-- `series.map(lambda x: targets.index(x))`: maps every label to its index in
`targets`, failing (as `list.index` raises) when some label is absent. -/
def mapLabels (targets : List ℕ) : List ℕ → Option (List ℕ)
  | [] => some []
  | x :: xs =>
    (listIndex x targets).bind fun i => (mapLabels targets xs).map fun rest => i :: rest

/-- `Split.__init__` restricted to the label logic (split.py lines 21-23):
`self.targets = sorted(list(y_train.unique()))` — distinct labels of the TRAIN series
in ascending order — then both label series are mapped through `targets.index`. -/
def Split.init (yTrain yTest : List ℕ) : Option SplitRec :=
  match mapLabels (List.insertionSort (· ≤ ·) yTrain.dedup) yTrain,
        mapLabels (List.insertionSort (· ≤ ·) yTrain.dedup) yTest with
  | some a, some b => some ⟨List.insertionSort (· ≤ ·) yTrain.dedup, a, b⟩
  | _, _ => none

/-! ## `ParamRange.__init__` (`optimizer.py`, lines 13-30) -/

/-- The state a `ParamRange` holds after construction. -/
structure ParamRange where
  minValue : Option ℚ
  maxValue : Option ℚ
  discreteValues : Option (List ℚ)
  log : Bool
  integer : Bool
deriving DecidableEq

/-- `ParamRange.__init__`, transcribed check for check: `min_v`, `max_v`, `dis_v` are
the `is None` flags, `any([a, b])` is `a || b`, `all([a, b])` is `a && b`, and the
three `raise ValueError` branches keep their order and messages. -/
def ParamRange.init (minValue maxValue : Option ℚ) (discreteValues : Option (List ℚ))
    (log integer : Bool) : Except String ParamRange :=
  let minV := minValue.isNone
  let maxV := maxValue.isNone
  let disV := discreteValues.isNone
  if (minV || maxV) && !(minV && maxV) then
    .error "Either both min_value and max_value must be set, or neither."
  else if (minV || maxV) && disV then
    .error "If min_value and max_value are set, discrete_values must not be None."
  else if minV && maxV && disV then
    .error "min_value and max_value or discrete_values must be set, got all None"
  else
    .ok ⟨minValue, maxValue, discreteValues, log, integer⟩

/-! ## Trial distribution and result collection in `Optimizer.optimize`
(`optimizer.py`, lines 183-259) and `_worker` (lines 76-103) -/

/-- `trials_per_worker = self.n // num_workers`. -/
def trialsPerWorker (n numWorkers : ℕ) : ℕ := n / numWorkers

/-- `remaining_trials = self.n % num_workers`. -/
def remainingTrials (n numWorkers : ℕ) : ℕ := n % numWorkers

/-- `worker_trials = trials_per_worker + (1 if i < remaining_trials else 0)`. -/
def workerShare (n numWorkers i : ℕ) : ℕ :=
  trialsPerWorker n numWorkers + (if i < remainingTrials n numWorkers then 1 else 0)

/-- The shares of the workers actually launched: the loop body starts a process only
`if worker_trials > 0`. -/
def launchedShares (n numWorkers : ℕ) : List ℕ :=
  ((List.range numWorkers).map (workerShare n numWorkers)).filter fun s => decide (0 < s)

/-- One recorded trial in the optuna study: `complete` carries the suggested
hyperparameters and the objective value, `failed` is a trial whose objective raised
(optuna records it with state FAILED; the worker's `try/except` logs and continues). -/
inductive TrialOutcome where
  | complete (params : List (String × ℚ)) (value : ℚ)
  | failed
deriving DecidableEq

/-- `_worker` (optimizer.py lines 97-103): runs its `n` trials sequentially; every
attempt — successful or raising — is recorded in the shared study, and a raising
attempt is caught (`except Exception: print; continue`), never propagated. -/
def workerRecords (n : ℕ) (outcome : ℕ → TrialOutcome) : List TrialOutcome :=
  (List.range n).map outcome

/-- `study.best_params` under `direction="maximize"`: the parameters of a completed
trial with maximal objective value, `none` when no trial completed (where optuna
raises `ValueError`). -/
def bestTrial (ledger : List TrialOutcome) : Option (List (String × ℚ) × ℚ) :=
  ledger.foldl
    (fun acc t =>
      match t with
      | .complete p v =>
        match acc with
        | none => some (p, v)
        | some (q, w) => if w < v then some (p, v) else some (q, w)
      | .failed => acc)
    none

/-- Everything the shared study holds after all workers joined: `n` trials are
distributed over `num_workers` with `workerShare`, a worker process is launched only
when its share is positive, and each launched worker contributes its `workerRecords`.
`outcomes i j` is the oracle for what trial `j` of worker `i` would record. -/
def studyRecords (n numWorkers : ℕ) (outcomes : ℕ → ℕ → TrialOutcome) :
    List TrialOutcome :=
  (List.range numWorkers).flatMap fun i =>
    if 0 < workerShare n numWorkers i then
      workerRecords (workerShare n numWorkers i) (outcomes i)
    else []

/-- The result-producing skeleton of `Optimizer.optimize` (optimizer.py lines
183-259): returns `{}` when the study holds no trial at all
(`len(study.trials) == 0`), and otherwise asks for `study.best_params` — which
raises when no trial COMPLETED, a raise the surrounding `except Exception` turns
into `return {}` as well. -/
def Optimizer.optimize (n numWorkers : ℕ) (outcomes : ℕ → ℕ → TrialOutcome) :
    List (String × ℚ) :=
  if (studyRecords n numWorkers outcomes).length = 0 then []
  else
    match bestTrial (studyRecords n numWorkers outcomes) with
    | none => []
    | some (p, _) => p

/-! ## Helper lemmas about `majority` / `minority` -/

theorem majority_mem {y : List ℕ} (h : y ≠ []) : majority y ∈ y := by
  unfold majority
  cases hm : y.dedup.argmax fun c => y.count c with
  | none =>
    rw [List.argmax_eq_none, List.dedup_eq_nil] at hm
    exact absurd hm h
  | some m =>
    simpa using List.dedup_subset y (List.argmax_mem (Option.mem_def.mpr hm))

theorem minority_mem {y : List ℕ} (h : y ≠ []) : minority y ∈ y := by
  unfold minority
  cases hm : y.dedup.argmin fun c => y.count c with
  | none =>
    rw [List.argmin_eq_none, List.dedup_eq_nil] at hm
    exact absurd hm h
  | some m =>
    simpa using List.dedup_subset y (List.argmin_mem (Option.mem_def.mpr hm))

theorem count_le_majority {y : List ℕ} {c : ℕ} (hc : c ∈ y) :
    y.count c ≤ y.count (majority y) := by
  have hcd : c ∈ y.dedup := List.mem_dedup.mpr hc
  unfold majority
  cases hm : y.dedup.argmax fun x => y.count x with
  | none =>
    rw [List.argmax_eq_none] at hm
    rw [hm] at hcd
    simp at hcd
  | some m =>
    have := List.not_lt_of_mem_argmax hcd (Option.mem_def.mpr hm)
    simpa using Nat.le_of_not_lt this

theorem minority_le_count {y : List ℕ} {c : ℕ} (hc : c ∈ y) :
    y.count (minority y) ≤ y.count c := by
  have hcd : c ∈ y.dedup := List.mem_dedup.mpr hc
  unfold minority
  cases hm : y.dedup.argmin fun x => y.count x with
  | none =>
    rw [List.argmin_eq_none] at hm
    rw [hm] at hcd
    simp at hcd
  | some m =>
    have := List.not_lt_of_mem_argmin hcd (Option.mem_def.mpr hm)
    simpa using Nat.le_of_not_lt this

/-! ## Claim theorems -/

/-- C6 counterexample: `Spliter.__init__` performs no validation at all, so a
configuration with `num_splits = 0 < 1` and `test_ratio = 2` outside `(0, 1)` is
accepted without any error, refuting the claim that construction raises
`ConfigurationError` for such inputs. -/
theorem spliterInit_accepts_invalid_config :
    Spliter.init 2 0 none = .ok ⟨2, 0, none⟩
      ∧ ¬(1 ≤ (0 : ℤ)) ∧ ¬(0 < (2 : ℚ) ∧ (2 : ℚ) < 1) := by
  refine ⟨rfl, by decide, ?_⟩
  intro h
  have := h.2
  norm_num at this

/-- C6 (amended): constructing a `Spliter` never raises: the constructor only stores
`test_ratio`, `num_splits` and `max_proportion_diff`, succeeding for every
configuration, including `num_splits < 1` and `test_ratio` outside `(0, 1)`. -/
theorem spliterInit_always_ok (testRatio : ℚ) (numSplits : ℤ)
    (maxProportionDiff : Option ℚ) :
    Spliter.init testRatio numSplits maxProportionDiff =
      .ok ⟨testRatio, numSplits, maxProportionDiff⟩ := rfl

/-- C5: evaluation of `ParamRange.__init__` at the failing input — both a `(min, max)`
bound pair and a discrete value set supplied — shows construction succeeding, where
the claim (and the intent of the garbled second check, whose message talks about
values being *set* while its condition tests `is None`, leaving the third check
unreachable) demands a `ConfigurationError`. -/
theorem paramRangeInit_accepts_both_domains :
    ParamRange.init (some 0) (some 1) (some [1, 2]) false false =
      .ok ⟨some 0, some 1, some [1, 2], false, false⟩ := rfl

/-- C8: the coordinator's trial distribution: the shares of the `num_workers` workers
sum to the total budget `n`, worker `i`'s share is `n / w + 1` for `i < n % w` and
`n / w` otherwise (ceiling-first remainder allocation), every launched worker has a
positive share, and `n = 10`, `num_workers = 3` yields shares `[4, 3, 3]`. -/
theorem workerShare_partition (n w : ℕ) (hw : 1 ≤ w) :
    ((List.range w).map (workerShare n w)).sum = n
      ∧ (∀ i, workerShare n w i = if i < n % w then n / w + 1 else n / w)
      ∧ (∀ s ∈ launchedShares n w, 0 < s)
      ∧ (List.range 3).map (workerShare 10 3) = [4, 3, 3] := by
  refine ⟨?_, ?_, ?_, by decide⟩
  · have key : ∀ k : ℕ,
        ((List.range k).map (workerShare n w)).sum = k * (n / w) + min k (n % w) := by
      intro k
      induction k with
      | zero => simp
      | succ k ih =>
        rw [List.range_succ, List.map_append, List.sum_append]
        simp only [List.map_cons, List.map_nil, List.sum_cons, List.sum_nil, ih]
        unfold workerShare trialsPerWorker remainingTrials
        rw [Nat.succ_mul]
        by_cases hk : k < n % w
        · rw [if_pos hk]
          omega
        · rw [if_neg hk]
          omega
    have hmod : n % w < w := Nat.mod_lt _ (by omega)
    rw [key w]
    have : min w (n % w) = n % w := by omega
    rw [this]
    have := Nat.div_add_mod n w
    omega
  · intro i
    unfold workerShare trialsPerWorker remainingTrials
    by_cases hk : i < n % w
    · rw [if_pos hk, if_pos hk]
    · rw [if_neg hk, if_neg hk]
      omega
  · intro s hs
    unfold launchedShares at hs
    have := List.of_mem_filter hs
    simpa using this

/-- C8 witness: the distribution facts instantiated at the concrete scenario
`n = 10`, `num_workers = 3`. -/
theorem workerShare_partition_witness :
    1 ≤ 3 ∧ ((List.range 3).map (workerShare 10 3)).sum = 10 :=
  ⟨by decide, (workerShare_partition 10 3 (by decide)).1⟩

/-- `bestTrial` finds nothing when every recorded trial failed. -/
theorem bestTrial_eq_none {l : List TrialOutcome}
    (h : ∀ t ∈ l, t = TrialOutcome.failed) : bestTrial l = none := by
  unfold bestTrial
  induction l with
  | nil => rfl
  | cons t ts ih =>
    have ht : t = TrialOutcome.failed := h t (List.mem_cons_self t ts)
    subst ht
    exact ih fun t' ht' => h t' (List.mem_cons_of_mem _ ht')

/-- Every record in the study came from some worker's trial `j < share`. -/
theorem mem_studyRecords {n w : ℕ} {outcomes : ℕ → ℕ → TrialOutcome}
    {t : TrialOutcome} (ht : t ∈ studyRecords n w outcomes) :
    ∃ i j, t = outcomes i j := by
  unfold studyRecords at ht
  rw [List.mem_flatMap] at ht
  obtain ⟨i, -, hti⟩ := ht
  by_cases hpos : 0 < workerShare n w i
  · rw [if_pos hpos] at hti
    unfold workerRecords at hti
    rw [List.mem_map] at hti
    obtain ⟨j, -, hj⟩ := hti
    exact ⟨i, j, hj.symm⟩
  · rw [if_neg hpos] at hti
    simp at hti

/-- C4: if zero trials complete — because the budget is `n = 0`, or because every
trial raises inside its worker — `Optimizer.optimize` returns the empty
hyperparameter dictionary instead of raising: with `n = 0` no worker records anything
and the `len(study.trials) == 0` branch returns `{}`; with all trials failing,
`study.best_params` finds no completed trial and the raised `ValueError` is caught by
the surrounding `except`, which also returns `{}`.  The embedding is a total
function, so no per-trial exception can reach the caller. -/
theorem optimize_empty_on_zero_completed (n w : ℕ)
    (outcomes : ℕ → ℕ → TrialOutcome)
    (h : n = 0 ∨ ∀ i j, outcomes i j = TrialOutcome.failed) :
    Optimizer.optimize n w outcomes = [] := by
  rcases h with h0 | hfail
  · subst h0
    have hrec : studyRecords 0 w outcomes = [] := by
      unfold studyRecords
      rw [List.flatMap_eq_nil_iff]
      intro i _
      have : workerShare 0 w i = 0 := by
        unfold workerShare trialsPerWorker remainingTrials
        simp
      rw [this]
      simp
    unfold Optimizer.optimize
    rw [hrec]
    rfl
  · unfold Optimizer.optimize
    by_cases hlen : (studyRecords n w outcomes).length = 0
    · rw [if_pos hlen]
    · rw [if_neg hlen]
      have : bestTrial (studyRecords n w outcomes) = none := by
        apply bestTrial_eq_none
        intro t ht
        obtain ⟨i, j, hij⟩ := mem_studyRecords ht
        rw [hij, hfail]
      rw [this]

/-- C4 witness: the zero-budget scenario with three workers and an
always-failing trial oracle. -/
theorem optimize_empty_on_zero_completed_witness :
    (0 = 0 ∨ ∀ i j : ℕ, (fun _ _ : ℕ => TrialOutcome.failed) i j = TrialOutcome.failed)
      ∧ Optimizer.optimize 0 3 (fun _ _ => TrialOutcome.failed) = [] :=
  ⟨Or.inl rfl,
   optimize_empty_on_zero_completed 0 3 (fun _ _ => TrialOutcome.failed) (Or.inl rfl)⟩

/-- The two folds returned by one `train_test_split` draw are disjoint (for a
duplicate-free index set) and together are exactly the input index set. -/
theorem trainTestSplit_partition {ratio : ℚ} {perm idx : List ℕ}
    (hp : perm.Perm idx) (hnd : idx.Nodup) :
    (∀ x ∈ (trainTestSplit ratio perm).1, x ∉ (trainTestSplit ratio perm).2)
      ∧ ∀ x, (x ∈ (trainTestSplit ratio perm).1 ∨ x ∈ (trainTestSplit ratio perm).2)
          ↔ x ∈ idx := by
  have hndp : perm.Nodup := hp.nodup_iff.mpr hnd
  constructor
  · intro x hx1 hx2
    exact (List.disjoint_take_drop hndp le_rfl) hx2 hx1
  · intro x
    constructor
    · rintro (hx | hx)
      · exact hp.subset (List.drop_subset _ _ hx)
      · exact hp.subset (List.take_subset _ _ hx)
    · intro hx
      have hx' : x ∈ perm := hp.mem_iff.mpr hx
      rw [← List.take_append_drop (⌈ratio * (perm.length : ℚ)⌉₊) perm] at hx'
      rcases List.mem_append.mp hx' with h | h
      · exact Or.inr h
      · exact Or.inl h

/-- C2: in unpaired mode with imbalance correction disabled, `Spliter.split`
returns exactly `K = num_splits` splits, and in each returned split the train and
validation index sets are disjoint and their union is the input index set.  The
oracle `perms i` is the shuffled order `train_test_split` uses on draw `i`; sklearn
guarantees it is a permutation of the input, and a dataframe's index set is
duplicate-free. -/
theorem splitRuns_partition (K : ℕ) (ratio : ℚ) (perms : ℕ → List ℕ) (idx : List ℕ)
    (hK : 1 ≤ K) (hperm : ∀ i < K, (perms i).Perm idx) (hnd : idx.Nodup) :
    (Spliter.splitRuns K ratio perms).length = K
      ∧ ∀ p ∈ Spliter.splitRuns K ratio perms,
          (∀ x ∈ p.1, x ∉ p.2) ∧ ∀ x, (x ∈ p.1 ∨ x ∈ p.2) ↔ x ∈ idx := by
  constructor
  · unfold Spliter.splitRuns
    simp
  · intro p hp
    unfold Spliter.splitRuns at hp
    rw [List.mem_map] at hp
    obtain ⟨i, hi, hpi⟩ := hp
    rw [List.mem_range] at hi
    subst hpi
    exact trainTestSplit_partition (hperm i hi) hnd

/-- C2 witness: one split of the index set `[0, 1]` under the shuffled order
`[1, 0]` and `test_ratio = 1/2`. -/
theorem splitRuns_partition_witness :
    1 ≤ 1
      ∧ (Spliter.splitRuns 1 (1 / 2) (fun _ => [1, 0])).length = 1 :=
  ⟨by decide,
   (splitRuns_partition 1 (1 / 2) (fun _ => [1, 0]) [0, 1] (by decide) (by decide)
       (by decide)).1⟩

/-- A pairing group holding two rows with different labels makes the single-label
check of `_pair_split` evaluate to false. -/
theorem groupLabelsConsistent_eq_false {rows : List Row}
    (h : ∃ r1 ∈ rows, ∃ r2 ∈ rows, r1.group = r2.group ∧ r1.label ≠ r2.label) :
    groupLabelsConsistent rows = false := by
  obtain ⟨r1, hr1, r2, hr2, hg, hl⟩ := h
  rw [Bool.eq_false_iff]
  intro hall
  unfold groupLabelsConsistent at hall
  rw [List.all_eq_true] at hall
  have hgmem : r1.group ∈ (rows.map Row.group).dedup :=
    List.mem_dedup.mpr (List.mem_map_of_mem _ hr1)
  have hlen := hall _ hgmem
  rw [beq_iff_eq] at hlen
  have h1 : r1.label ∈ (rows.filter fun r => decide (r.group = r1.group)).map Row.label :=
    List.mem_map_of_mem _ (List.mem_filter.mpr ⟨hr1, by simp⟩)
  have h2 : r2.label ∈ (rows.filter fun r => decide (r.group = r1.group)).map Row.label :=
    List.mem_map_of_mem _ (List.mem_filter.mpr ⟨hr2, by simp [hg.symm]⟩)
  have h1d := List.mem_dedup.mpr h1
  have h2d := List.mem_dedup.mpr h2
  rw [List.length_eq_one] at hlen
  obtain ⟨a, ha⟩ := hlen
  rw [ha] at h1d h2d
  simp only [List.mem_singleton] at h1d h2d
  exact hl (h1d.trans h2d.symm)

/-- C7: in paired mode, a pairing group carrying two different label values makes
`split` fail with the fatal single-label error (the spec's `DataIntegrityError`,
realised in the source as the assert of spliter.py lines 55-56) for every valid
`num_splits`, before any split is produced; the group is never silently dropped or
assigned. -/
theorem pairSplit_inconsistent_errors (K : ℕ) (ratio : ℚ) (mpd : Option ℚ)
    (perms : ℕ → List ℕ) (samples : ℕ → List Row) (rows : List Row) (hK : 1 ≤ K)
    (h : ∃ r1 ∈ rows, ∃ r2 ∈ rows, r1.group = r2.group ∧ r1.label ≠ r2.label) :
    Spliter.pairSplit K ratio mpd perms samples rows =
      .error
        "Each pair must have a single unique label. Got multiple label for some pairs." := by
  unfold Spliter.pairSplit
  rw [groupLabelsConsistent_eq_false h]
  rfl

/-- C7 witness: a two-row dataset whose single pairing group carries labels 0 and 1. -/
theorem pairSplit_inconsistent_errors_witness :
    (1 ≤ 1
        ∧ ∃ r1 ∈ [Row.mk 0 0, Row.mk 0 1], ∃ r2 ∈ [Row.mk 0 0, Row.mk 0 1],
            r1.group = r2.group ∧ r1.label ≠ r2.label)
      ∧ Spliter.pairSplit 1 (1 / 2) none (fun _ => [0]) (fun _ => [])
          [Row.mk 0 0, Row.mk 0 1] =
        .error
          "Each pair must have a single unique label. Got multiple label for some pairs." :=
  ⟨⟨by decide, by decide⟩,
   pairSplit_inconsistent_errors 1 (1 / 2) none (fun _ => [0]) (fun _ => [])
     [Row.mk 0 0, Row.mk 0 1] (by decide) (by decide)⟩

/-- Rows of the (possibly imbalance-corrected) training fold of split `i` all have
their group in the train side of the pair-level `train_test_split`. -/
theorem trainFold_group_mem {ratio d : ℚ} {perm : List ℕ} {sample rows : List Row}
    {r : Row}
    (hsamp : ∀ s ∈ sample, s ∈ Spliter.trainRows ratio perm rows)
    (hr : r ∈ Spliter.redistributeRows d sample (Spliter.trainRows ratio perm rows)) :
    r ∈ Spliter.trainRows ratio perm rows := by
  unfold Spliter.redistributeRows at hr
  by_cases htrig :
      maxProp ((Spliter.trainRows ratio perm rows).map Row.label) -
          minProp ((Spliter.trainRows ratio perm rows).map Row.label) > d
  · rw [if_pos htrig] at hr
    rcases List.mem_append.mp hr with hs | hf
    · exact hsamp r hs
    · exact List.mem_of_mem_filter hf
  · rw [if_neg htrig] at hr
    exact hr

/-- C3: in paired mode (with a consistent grouping), no group identifier appears in
both the train fold and the validation fold of the same split: the split is taken
over the unique pairing values (the oracle `perms i` is their shuffled order) and
every row travels with its group; imbalance correction only removes training rows
(its sampled rows `samples i` are drawn from the majority class of that training
fold). -/
theorem pairSplit_groups_disjoint (K : ℕ) (ratio : ℚ) (mpd : Option ℚ)
    (perms : ℕ → List ℕ) (samples : ℕ → List Row) (rows : List Row)
    (splits : List (List Row × List Row))
    (hperm : ∀ i < K, (perms i).Perm (rows.map Row.group).dedup)
    (hsamp : ∀ i < K, ∀ r ∈ samples i, r ∈ Spliter.trainRows ratio (perms i) rows)
    (hok : Spliter.pairSplit K ratio mpd perms samples rows = .ok splits) :
    ∀ p ∈ splits, ∀ g, ¬((∃ r ∈ p.1, r.group = g) ∧ ∃ r ∈ p.2, r.group = g) := by
  unfold Spliter.pairSplit at hok
  by_cases hc : groupLabelsConsistent rows
  · rw [if_pos hc] at hok
    cases hok
    intro p hp g hg
    rw [List.mem_map] at hp
    obtain ⟨i, hi, hpi⟩ := hp
    rw [List.mem_range] at hi
    obtain ⟨⟨r, hr, hrg⟩, ⟨r', hr', hrg'⟩⟩ := hg
    subst hpi
    have hrt : r ∈ Spliter.trainRows ratio (perms i) rows := by
      cases mpd with
      | none => exact hr
      | some d => exact trainFold_group_mem (hsamp i hi) hr
    have hrv : r' ∈ Spliter.valRows ratio (perms i) rows := hr'
    unfold Spliter.trainRows at hrt
    unfold Spliter.valRows at hrv
    have hgr : r.group ∈ (trainTestSplit ratio (perms i)).1 := by
      have := (List.mem_filter.mp hrt).2
      simpa using this
    have hgr' : r'.group ∈ (trainTestSplit ratio (perms i)).2 := by
      have := (List.mem_filter.mp hrv).2
      simpa using this
    have hnd : (perms i).Nodup :=
      (hperm i hi).nodup_iff.mpr (List.nodup_dedup _)
    rw [hrg] at hgr
    rw [hrg'] at hgr'
    exact (List.disjoint_take_drop hnd le_rfl) hgr' hgr
  · rw [if_neg hc] at hok
    cases hok

/-- C3 witness: one split of a two-group dataset; group 0 lands in train, group 1 in
validation, and no group is on both sides. -/
theorem pairSplit_groups_disjoint_witness :
    ¬((∃ r ∈ [Row.mk 0 0], r.group = 0) ∧ ∃ r ∈ [Row.mk 1 1], r.group = 0) :=
  pairSplit_groups_disjoint 1 (1 / 2) none (fun _ => [1, 0]) (fun _ => [])
    [Row.mk 0 0, Row.mk 1 1] [([Row.mk 0 0], [Row.mk 1 1])]
    (by decide) (by decide) (by with_unfolding_all rfl)
    ([Row.mk 0 0], [Row.mk 1 1]) (by decide) 0

/-- `list.index` succeeds on every member. -/
theorem listIndex_of_mem {x : ℕ} :
    ∀ {l : List ℕ}, x ∈ l → ∃ i, listIndex x l = some i := by
  intro l
  induction l with
  | nil => intro h; simp at h
  | cons t ts ih =>
    intro hx
    unfold listIndex
    by_cases h : t = x
    · exact ⟨0, by rw [if_pos h]⟩
    · have hx' : x ∈ ts := by
        rcases List.mem_cons.mp hx with h' | h'
        · exact absurd h'.symm h
        · exact h'
      obtain ⟨i, hi⟩ := ih hx'
      exact ⟨i + 1, by rw [if_neg h, hi]; rfl⟩

/-- The index `list.index` returns points back at the looked-up value. -/
theorem listIndex_get {x : ℕ} :
    ∀ {l : List ℕ} {i : ℕ}, listIndex x l = some i → l.get? i = some x := by
  intro l
  induction l with
  | nil => intro i h; simp [listIndex] at h
  | cons t ts ih =>
    intro i h
    unfold listIndex at h
    by_cases ht : t = x
    · rw [if_pos ht] at h
      cases h
      simp [ht]
    · rw [if_neg ht] at h
      cases hj : listIndex x ts with
      | none => rw [hj] at h; simp at h
      | some j =>
        rw [hj] at h
        simp only [Option.map_some'] at h
        cases h
        simpa using ih hj

/-- `mapLabels` succeeds when every label is a known target. -/
theorem mapLabels_of_mem {targets : List ℕ} :
    ∀ {l : List ℕ}, (∀ x ∈ l, x ∈ targets) → ∃ out, mapLabels targets l = some out := by
  intro l
  induction l with
  | nil => intro _; exact ⟨[], rfl⟩
  | cons x xs ih =>
    intro h
    obtain ⟨i, hi⟩ := listIndex_of_mem (h x (List.mem_cons_self x xs))
    obtain ⟨out, hout⟩ := ih fun y hy => h y (List.mem_cons_of_mem _ hy)
    exact ⟨i :: out, by unfold mapLabels; rw [hi, hout]; rfl⟩

/-- What a successful `mapLabels` run produces: one index per input label, each index
in range and pointing back at its label. -/
theorem mapLabels_spec {targets : List ℕ} :
    ∀ {l out : List ℕ}, mapLabels targets l = some out →
      out.length = l.length
        ∧ (∀ p ∈ l.zip out, targets.get? p.2 = some p.1)
        ∧ ∀ v ∈ out, v < targets.length := by
  intro l
  induction l with
  | nil =>
    intro out h
    cases h
    exact ⟨rfl, by simp, by simp⟩
  | cons x xs ih =>
    intro out h
    unfold mapLabels at h
    cases hi : listIndex x targets with
    | none => rw [hi] at h; simp at h
    | some i =>
      rw [hi] at h
      cases hrest : mapLabels targets xs with
      | none => rw [hrest] at h; simp at h
      | some rest =>
        rw [hrest] at h
        simp only [Option.map_some', Option.bind_some] at h
        cases h
        obtain ⟨hlen, hzip, hbound⟩ := ih hrest
        have hget := listIndex_get hi
        have hix : i < targets.length := by
          rcases List.get?_eq_some.mp hget with ⟨hlt, -⟩
          exact hlt
        refine ⟨by simp [hlen], ?_, ?_⟩
        · intro p hp
          rw [List.zip_cons_cons] at hp
          rcases List.mem_cons.mp hp with hp' | hp'
          · rw [hp']
            exact hget
          · exact hzip p hp'
        · intro v hv
          rcases List.mem_cons.mp hv with hv' | hv'
          · rw [hv']
            exact hix
          · exact hbound v hv'

/-- C9 counterexample: label `2` occurs only in the validation series, `targets` is
built from the train series alone, and `Split.__init__` fails (the embedded `none` is
CPython's `ValueError` from `list.index`) instead of remapping the validation
labels, refuting the claim that the remap covers validation-only label values. -/
theorem splitInit_val_only_label_fails : Split.init [0, 1] [2] = none := by decide

/-- C9 (amended): when every validation label also occurs in the train series,
`Split.__init__` remaps both label vectors to dense integer indices `0..C-1` through
`targets`, the distinct TRAIN label values in ascending order; a validation-only
label is outside the mapping and construction fails with `ValueError` instead. -/
theorem splitInit_dense_remap (yTrain yTest : List ℕ)
    (h : ∀ x ∈ yTest, x ∈ yTrain) :
    ∃ r, Split.init yTrain yTest = some r
      ∧ List.Sorted (· ≤ ·) r.targets
      ∧ r.targets.Nodup
      ∧ (∀ t, t ∈ r.targets ↔ t ∈ yTrain)
      ∧ r.yTrain.length = yTrain.length
      ∧ r.yTest.length = yTest.length
      ∧ (∀ p ∈ yTrain.zip r.yTrain, r.targets.get? p.2 = some p.1)
      ∧ (∀ p ∈ yTest.zip r.yTest, r.targets.get? p.2 = some p.1)
      ∧ (∀ v ∈ r.yTrain, v < r.targets.length)
      ∧ ∀ v ∈ r.yTest, v < r.targets.length := by
  have hmemT : ∀ x, x ∈ List.insertionSort (· ≤ ·) yTrain.dedup ↔ x ∈ yTrain :=
    fun x => (List.perm_insertionSort _ _).mem_iff.trans List.mem_dedup
  obtain ⟨a, ha⟩ := @mapLabels_of_mem (List.insertionSort (· ≤ ·) yTrain.dedup)
    yTrain fun x hx => (hmemT x).mpr hx
  obtain ⟨b, hb⟩ := @mapLabels_of_mem (List.insertionSort (· ≤ ·) yTrain.dedup)
    yTest fun x hx => (hmemT x).mpr (h x hx)
  obtain ⟨halen, hazip, habound⟩ := mapLabels_spec ha
  obtain ⟨hblen, hbzip, hbbound⟩ := mapLabels_spec hb
  refine ⟨⟨List.insertionSort (· ≤ ·) yTrain.dedup, a, b⟩, ?_, ?_, ?_, hmemT, halen,
    hblen, hazip, hbzip, habound, hbbound⟩
  · unfold Split.init
    rw [ha, hb]
  · exact List.sorted_insertionSort _ _
  · exact (List.perm_insertionSort _ _).nodup_iff.mpr (List.nodup_dedup _)

/-- C9 witness: train labels `[3, 1, 1, 0]` and validation labels `[0, 3]`
(all validation labels known from training). -/
theorem splitInit_dense_remap_witness :
    (∀ x ∈ [0, 3], x ∈ [3, 1, 1, 0])
      ∧ ∃ r, Split.init [3, 1, 1, 0] [0, 3] = some r
          ∧ List.Sorted (· ≤ ·) r.targets
          ∧ r.targets.Nodup
          ∧ (∀ t, t ∈ r.targets ↔ t ∈ [3, 1, 1, 0])
          ∧ r.yTrain.length = List.length [3, 1, 1, 0]
          ∧ r.yTest.length = List.length [0, 3]
          ∧ (∀ p ∈ List.zip [3, 1, 1, 0] r.yTrain, r.targets.get? p.2 = some p.1)
          ∧ (∀ p ∈ List.zip [0, 3] r.yTest, r.targets.get? p.2 = some p.1)
          ∧ (∀ v ∈ r.yTrain, v < r.targets.length)
          ∧ ∀ v ∈ r.yTest, v < r.targets.length :=
  ⟨by decide, splitInit_dense_remap [3, 1, 1, 0] [0, 3] (by decide)⟩

/-! ## Lemmas about `redistribute` -/

/-- `_redistribute` with the down-sampling branch taken. -/
theorem redistribute_eq {d : ℚ} {y : List ℕ} (htrig : maxProp y - minProp y > d) :
    redistribute d y =
      List.replicate (⌊minProp y * ((d + 1) / (1 - d)) * (y.length : ℚ)⌋).toNat
          (majority y) ++
        List.replicate (y.count (minority y)) (minority y) := by
  unfold redistribute
  rw [if_pos htrig]

/-- A corrected fold only holds majority- and minority-class labels. -/
theorem redistribute_mem {d : ℚ} {y : List ℕ} (htrig : maxProp y - minProp y > d) :
    ∀ c ∈ redistribute d y, c = majority y ∨ c = minority y := by
  intro c hc
  rw [redistribute_eq htrig] at hc
  rcases List.mem_append.mp hc with h | h
  · exact Or.inl (List.mem_replicate.mp h).2
  · exact Or.inr (List.mem_replicate.mp h).2

theorem count_replicate_append_left {a b : ℕ} {N m : ℕ} (hab : a ≠ b) :
    (List.replicate N a ++ List.replicate m b).count a = N := by
  rw [List.count_append, List.count_replicate_self, List.count_replicate]
  have : (b == a) = false := by simpa using Ne.symm hab
  rw [this]
  simp

theorem count_replicate_append_right {a b : ℕ} {N m : ℕ} (hab : a ≠ b) :
    (List.replicate N a ++ List.replicate m b).count b = m := by
  rw [List.count_append, List.count_replicate_self, List.count_replicate]
  have : (a == b) = false := by simpa using hab
  rw [this]
  simp

/-- Arithmetic of the `majority_count` formula: with
`N = int(m * (d + 1) / (1 - d))`, the down-sampled majority count is at least the
minority count `m`, satisfies the proportion-gap constraint in product form, and is
the largest natural number doing so. -/
theorem downsample_count_bounds {d : ℚ} (m : ℕ) (hd : 0 ≤ d) (hd1 : d < 1) :
    m ≤ (⌊(m : ℚ) * ((d + 1) / (1 - d))⌋).toNat
      ∧ (((⌊(m : ℚ) * ((d + 1) / (1 - d))⌋).toNat : ℚ) * (1 - d) ≤ (m : ℚ) * (1 + d))
      ∧ ∀ k : ℕ, (k : ℚ) * (1 - d) ≤ (m : ℚ) * (1 + d) →
          k ≤ (⌊(m : ℚ) * ((d + 1) / (1 - d))⌋).toNat := by
  have h1d : (0 : ℚ) < 1 - d := by linarith
  have hratio : (1 : ℚ) ≤ (d + 1) / (1 - d) := by
    rw [le_div_iff h1d]
    linarith
  have hfloor_ge : (m : ℤ) ≤ ⌊(m : ℚ) * ((d + 1) / (1 - d))⌋ := by
    rw [Int.le_floor]
    calc ((m : ℤ) : ℚ) = (m : ℚ) * 1 := by push_cast; ring
      _ ≤ (m : ℚ) * ((d + 1) / (1 - d)) :=
        mul_le_mul_of_nonneg_left hratio (by positivity)
  have hfloor_nonneg : (0 : ℤ) ≤ ⌊(m : ℚ) * ((d + 1) / (1 - d))⌋ :=
    le_trans (by exact_mod_cast Nat.zero_le m) hfloor_ge
  have htoNat : ((⌊(m : ℚ) * ((d + 1) / (1 - d))⌋).toNat : ℤ) =
      ⌊(m : ℚ) * ((d + 1) / (1 - d))⌋ := Int.toNat_of_nonneg hfloor_nonneg
  have hNQ : ((⌊(m : ℚ) * ((d + 1) / (1 - d))⌋).toNat : ℚ) ≤
      (m : ℚ) * ((d + 1) / (1 - d)) := by
    calc ((⌊(m : ℚ) * ((d + 1) / (1 - d))⌋).toNat : ℚ)
        = ((((⌊(m : ℚ) * ((d + 1) / (1 - d))⌋).toNat : ℤ)) : ℚ) := by push_cast; ring
      _ = ((⌊(m : ℚ) * ((d + 1) / (1 - d))⌋ : ℤ) : ℚ) := by rw [htoNat]
      _ ≤ (m : ℚ) * ((d + 1) / (1 - d)) := Int.floor_le _
  refine ⟨by omega, ?_, ?_⟩
  · have hmul := mul_le_mul_of_nonneg_right hNQ (le_of_lt h1d)
    have hxsimp : (m : ℚ) * ((d + 1) / (1 - d)) * (1 - d) = (m : ℚ) * (d + 1) := by
      field_simp
    rw [hxsimp] at hmul
    nlinarith [hmul]
  · intro k hk
    have hkx : (k : ℚ) ≤ (m : ℚ) * ((d + 1) / (1 - d)) := by
      calc (k : ℚ) = (k : ℚ) * (1 - d) / (1 - d) := by field_simp
        _ ≤ (m : ℚ) * (d + 1) / (1 - d) := by
          apply (div_le_div_right h1d).mpr
          nlinarith [hk]
        _ = (m : ℚ) * ((d + 1) / (1 - d)) := by ring
    have : (k : ℤ) ≤ ⌊(m : ℚ) * ((d + 1) / (1 - d))⌋ :=
      Int.le_floor.mpr (by exact_mod_cast hkx)
    omega

/-- C1: when a training fold's class-proportion gap exceeds `max_proportion_diff = d`
(with `0 ≤ d`), the correction step leaves the corrected training fold with
`max_proportion − min_proportion ≤ d`; the new majority count `N` satisfies
`(N − min_count) / (N + min_count) ≤ d` and is the largest count doing so
(down-sampling without replacement to exactly that count); and the validation fold of
the same split is returned untouched. -/
theorem redistribute_gap_le (d : ℚ) (tr va : List ℕ) (hd : 0 ≤ d) (hne : tr ≠ [])
    (htrig : maxProp tr - minProp tr > d) :
    maxProp (correctedSplit d tr va).1 - minProp (correctedSplit d tr va).1 ≤ d
      ∧ (((correctedSplit d tr va).1.count (majority tr) : ℚ) -
            (tr.count (minority tr) : ℚ)) /
          (((correctedSplit d tr va).1.count (majority tr) : ℚ) +
            (tr.count (minority tr) : ℚ)) ≤ d
      ∧ (∀ k : ℕ,
          ((k : ℚ) - (tr.count (minority tr) : ℚ)) /
              ((k : ℚ) + (tr.count (minority tr) : ℚ)) ≤ d →
            k ≤ (correctedSplit d tr va).1.count (majority tr))
      ∧ (correctedSplit d tr va).2 = va := by
  have hn : 0 < tr.length := List.length_pos.mpr hne
  have hnQ : (0 : ℚ) < (tr.length : ℚ) := by exact_mod_cast hn
  have hmpos : 0 < tr.count (minority tr) := List.count_pos_iff.mpr (minority_mem hne)
  have hmQ : (0 : ℚ) < (tr.count (minority tr) : ℚ) := by exact_mod_cast hmpos
  have hMn : tr.count (majority tr) ≤ tr.length := List.count_le_length _ _
  have hd1 : d < 1 := by
    have h1 : maxProp tr ≤ 1 := by
      unfold maxProp
      rw [div_le_one hnQ]
      exact_mod_cast hMn
    have h2 : 0 ≤ minProp tr := by
      unfold minProp
      positivity
    linarith [htrig]
  have h1d : (0 : ℚ) < 1 - d := by linarith
  have hMm : tr.count (minority tr) < tr.count (majority tr) := by
    have hlt : minProp tr < maxProp tr := by linarith [htrig]
    unfold maxProp minProp at hlt
    rw [div_lt_div_right hnQ] at hlt
    exact_mod_cast hlt
  have hmajne : majority tr ≠ minority tr := by
    intro h
    rw [h] at hMm
    exact lt_irrefl _ hMm
  have hexpr : minProp tr * ((d + 1) / (1 - d)) * (tr.length : ℚ) =
      (tr.count (minority tr) : ℚ) * ((d + 1) / (1 - d)) := by
    unfold minProp
    field_simp
    ring
  obtain ⟨hmN, hkey, hlargestN⟩ := downsample_count_bounds (tr.count (minority tr)) hd hd1
  have hy' : redistribute d tr =
      List.replicate (⌊(tr.count (minority tr) : ℚ) * ((d + 1) / (1 - d))⌋).toNat
          (majority tr) ++
        List.replicate (tr.count (minority tr)) (minority tr) := by
    rw [redistribute_eq htrig, hexpr]
  have hcountmaj : (redistribute d tr).count (majority tr) =
      (⌊(tr.count (minority tr) : ℚ) * ((d + 1) / (1 - d))⌋).toNat := by
    rw [hy']
    exact count_replicate_append_left hmajne
  have hcountmin : (redistribute d tr).count (minority tr) = tr.count (minority tr) := by
    rw [hy']
    exact count_replicate_append_right hmajne
  have hlen : (redistribute d tr).length =
      (⌊(tr.count (minority tr) : ℚ) * ((d + 1) / (1 - d))⌋).toNat +
        tr.count (minority tr) := by
    rw [hy']
    simp
  have hne' : redistribute d tr ≠ [] := by
    apply List.ne_nil_of_length_pos
    rw [hlen]
    omega
  have hmajmem' : majority tr ∈ redistribute d tr := by
    rw [hy']
    apply List.mem_append_left
    rw [List.mem_replicate]
    exact ⟨by omega, rfl⟩
  have hminmem' : minority tr ∈ redistribute d tr := by
    rw [hy']
    apply List.mem_append_right
    rw [List.mem_replicate]
    exact ⟨by omega, rfl⟩
  have hcM : (redistribute d tr).count (majority (redistribute d tr)) =
      (⌊(tr.count (minority tr) : ℚ) * ((d + 1) / (1 - d))⌋).toNat := by
    apply le_antisymm
    · rcases redistribute_mem htrig _ (majority_mem hne') with h | h
      · rw [h, hcountmaj]
      · rw [h, hcountmin]
        exact hmN
    · rw [← hcountmaj]
      exact count_le_majority hmajmem'
  have hcm : (redistribute d tr).count (minority (redistribute d tr)) =
      tr.count (minority tr) := by
    apply le_antisymm
    · rw [← hcountmin]
      exact minority_le_count hminmem'
    · rcases redistribute_mem htrig _ (minority_mem hne') with h | h
      · rw [h, hcountmaj]
        exact hmN
      · rw [h, hcountmin]
  have hNmQ : (0 : ℚ) <
      ((⌊(tr.count (minority tr) : ℚ) * ((d + 1) / (1 - d))⌋).toNat : ℚ) +
        (tr.count (minority tr) : ℚ) := by
    have : (0 : ℚ) ≤
        ((⌊(tr.count (minority tr) : ℚ) * ((d + 1) / (1 - d))⌋).toNat : ℚ) := by
      positivity
    linarith
  have hfold1 : (correctedSplit d tr va).1 = redistribute d tr := rfl
  refine ⟨?_, ?_, ?_, rfl⟩
  · unfold maxProp minProp
    rw [hfold1, hcM, hcm, hlen]
    push_cast
    rw [div_sub_div_same, div_le_iff (by push_cast at hNmQ ⊢; linarith [hNmQ])]
    nlinarith [hkey]
  · rw [hfold1, hcountmaj, div_le_iff hNmQ]
    nlinarith [hkey]
  · intro k hk
    rw [hfold1, hcountmaj]
    have hkmQ : (0 : ℚ) < (k : ℚ) + (tr.count (minority tr) : ℚ) := by
      have : (0 : ℚ) ≤ (k : ℚ) := by positivity
      linarith
    rw [div_le_iff hkmQ] at hk
    exact hlargestN k (by nlinarith [hk])

/-- C1 witness: a 10-sample binary training fold with a 70/30 class split and
`max_proportion_diff = 1/5`; the trigger fires (gap `2/5`) and the corrected gap is
bounded by `1/5`. -/
theorem redistribute_gap_le_witness :
    (0 ≤ (1 / 5 : ℚ) ∧ ([0, 0, 0, 0, 0, 0, 0, 1, 1, 1] : List ℕ) ≠ []
        ∧ maxProp [0, 0, 0, 0, 0, 0, 0, 1, 1, 1] -
            minProp [0, 0, 0, 0, 0, 0, 0, 1, 1, 1] > 1 / 5)
      ∧ maxProp (correctedSplit (1 / 5) [0, 0, 0, 0, 0, 0, 0, 1, 1, 1] [5]).1 -
            minProp (correctedSplit (1 / 5) [0, 0, 0, 0, 0, 0, 0, 1, 1, 1] [5]).1 ≤
          1 / 5
        ∧ (correctedSplit (1 / 5) [0, 0, 0, 0, 0, 0, 0, 1, 1, 1] [5]).2 = [5] :=
  ⟨⟨by with_unfolding_all decide, by decide, by with_unfolding_all decide⟩,
   (redistribute_gap_le (1 / 5) [0, 0, 0, 0, 0, 0, 0, 1, 1, 1] [5]
       (by with_unfolding_all decide) (by decide) (by with_unfolding_all decide)).1,
   (redistribute_gap_le (1 / 5) [0, 0, 0, 0, 0, 0, 0, 1, 1, 1] [5]
       (by with_unfolding_all decide) (by decide) (by with_unfolding_all decide)).2.2.2⟩

/-- In a duplicate-free list longer than two there is an element different from any
two given values. -/
theorem exists_third {l : List ℕ} (hnd : l.Nodup) (hlen : 2 < l.length) (a b : ℕ) :
    ∃ c ∈ l, c ≠ a ∧ c ≠ b := by
  by_contra h
  push_neg at h
  have hsub : l.toFinset ⊆ insert a {b} := by
    intro c hc
    rw [List.mem_toFinset] at hc
    by_cases hca : c = a
    · simp [hca]
    · simp [h c hc hca]
  have hcard := Finset.card_le_card hsub
  have h2 : (insert a ({b} : Finset ℕ)).card ≤ 2 := by
    apply le_trans (Finset.card_insert_le _ _)
    simp
  have := List.toFinset_card_of_nodup hnd
  omega

/-- C10 (implicit behavior): when the correction triggers on a training fold with
more than two distinct classes, the corrected fold holds only majority- and
minority-class labels, and some class present in the input fold has been silently
dropped. -/
theorem redistribute_drops_other_classes (d : ℚ) (tr : List ℕ)
    (hclasses : 2 < tr.dedup.length) (htrig : maxProp tr - minProp tr > d) :
    (∀ c ∈ redistribute d tr, c = majority tr ∨ c = minority tr)
      ∧ ∃ c ∈ tr, c ∉ redistribute d tr := by
  refine ⟨redistribute_mem htrig, ?_⟩
  obtain ⟨c, hcl, hca, hcb⟩ :=
    exists_third (List.nodup_dedup tr) hclasses (majority tr) (minority tr)
  refine ⟨c, List.mem_dedup.mp hcl, fun hc => ?_⟩
  rcases redistribute_mem htrig c hc with h | h
  · exact hca h
  · exact hcb h

/-- C10 witness: a three-class fold with counts 6/2/2 and `max_proportion_diff = 1/5`:
the correction triggers and the third class disappears from the corrected fold. -/
theorem redistribute_drops_other_classes_witness :
    (2 < ([0, 0, 0, 0, 0, 0, 1, 1, 2, 2] : List ℕ).dedup.length
        ∧ maxProp [0, 0, 0, 0, 0, 0, 1, 1, 2, 2] -
            minProp [0, 0, 0, 0, 0, 0, 1, 1, 2, 2] > 1 / 5)
      ∧ ∃ c ∈ ([0, 0, 0, 0, 0, 0, 1, 1, 2, 2] : List ℕ),
          c ∉ redistribute (1 / 5) [0, 0, 0, 0, 0, 0, 1, 1, 2, 2] :=
  ⟨⟨by decide, by with_unfolding_all decide⟩,
   (redistribute_drops_other_classes (1 / 5) [0, 0, 0, 0, 0, 0, 1, 1, 2, 2]
       (by decide) (by with_unfolding_all decide)).2⟩

end MetaboMCP
